import Mathlib

/-!
Verification of the Tools-Manager selection engine.

The definitions below are a shallow embedding of the selection-state code of
the `higibbo/Tools-Manger` repository:

* `src/src/webparts/toolsManager/components/ToolsManager.tsx`
  (`moveItem`, `addTool`, `removeTool`, `filteredAvailableTools`);
* the drag-and-drop / file-backed component variant
  (`moveItem`, `addTool`, `removeTool` with explicit `saveToolsToFile` calls,
  `dragDropEvents.onDrop`, `handleToolsFile`).

JavaScript arrays admit `undefined` slots: `moveItem` does not bounds-check
`fromIndex`, and `arr.splice(fromIndex, 1)` with `fromIndex ≥ length` removes
nothing, so the destructured `movedItem` is `undefined` and is then spliced
back in.  We therefore model a selection as `List (Option ITool)`: a `some`
slot is a tool object and `none` is the JavaScript value `undefined`.
Callbacks that read `tool.id` (in `find`, `filter`, `findIndex`) throw a
`TypeError` when they hit an `undefined` slot; the thrown exception leaves the
React state unchanged (the `setSelectedTools` call is never reached), which we
model as `Except Unit` with the `.error` branch mapped to "state unchanged".
-/

/-- A tool record, from the `ITool` interface: `id`, `title`, `icon`, `url`. -/
structure ITool where
  id : String
  title : String
  icon : String
  url : String
deriving DecidableEq, Repr

/-- The effective index used by `Array.prototype.splice(start, …)`:
negative `start` counts from the end clamped to `0`, non-negative `start` is
clamped to the length. -/
def spliceIndex (len : Nat) (start : Int) : Nat :=
  if start < 0 then ((len : Int) + start).toNat else min start.toNat len

/-- `arr.splice(start, 1)` followed by destructuring `const [moved] = …`:
returns the removed slot (if any) and the remaining array. -/
def jsSplice1 (l : List α) (start : Int) : Option α × List α :=
  let a := spliceIndex l.length start
  (l[a]?, l.take a ++ l.drop (a + 1))

/-- `arr.splice(start, 0, x)`: inserts `x` at the (clamped) index `start`. -/
def jsInsert (l : List α) (start : Int) (x : α) : List α :=
  let a := spliceIndex l.length start
  l.take a ++ x :: l.drop a

/-- `moveItem(fromIndex, toIndex)` from `ToolsManager.tsx` lines 217–223:
`if (toIndex < 0 || toIndex >= selectedTools.length) return;` then
`const [movedItem] = newTools.splice(fromIndex, 1);
 newTools.splice(toIndex, 0, movedItem);`.
Only `toIndex` is bounds-checked; `fromIndex` is passed to `splice` raw, and
when `splice` removes nothing the destructured `movedItem` is `undefined`
(`none`) and is inserted as such. -/
def moveItem (sel : List (Option β)) (fromIndex toIndex : Int) : List (Option β) :=
  if toIndex < 0 ∨ (sel.length : Int) ≤ toIndex then sel
  else
    let p := jsSplice1 sel fromIndex
    jsInsert p.2 toIndex p.1.join

/-- `selectedTools.find(t => t.id === tool.id)`: returns the first matching
slot, `.ok none` when the whole array was scanned without a match, and
`.error ()` for the `TypeError` raised by `t.id` on an `undefined` slot
reached before any match. -/
def jsFindToolById : List (Option ITool) → String → Except Unit (Option ITool)
  | [], _ => .ok none
  | none :: _, _ => .error ()
  | some t :: rest, i => if t.id = i then .ok (some t) else jsFindToolById rest i

/-- `addTool(tool)` from `ToolsManager.tsx` lines 225–229: append `tool` iff
`find` scanned the whole selection without a match (a thrown `TypeError` also
leaves the state unchanged). -/
def addTool (sel : List (Option ITool)) (tool : ITool) : List (Option ITool) :=
  match jsFindToolById sel tool.id with
  | .ok none => sel ++ [some tool]
  | _ => sel

/-- `selectedTools.filter(tool => tool.id !== toolId)`: `.error ()` models the
`TypeError` raised by `tool.id` on an `undefined` slot (filter visits every
slot, so any `undefined` slot throws). -/
def jsFilterNeId : List (Option ITool) → String → Except Unit (List (Option ITool))
  | [], _ => .ok []
  | none :: _, _ => .error ()
  | some t :: rest, i =>
    match jsFilterNeId rest i with
    | .error e => .error e
    | .ok r => .ok (if t.id ≠ i then some t :: r else r)

/-- `removeTool(toolId)` from `ToolsManager.tsx` lines 231–233: keep the slots
whose id differs from `toolId`; a thrown `TypeError` leaves the state
unchanged. -/
def removeTool (sel : List (Option ITool)) (toolId : String) : List (Option ITool) :=
  match jsFilterNeId sel toolId with
  | .ok r => r
  | .error _ => sel

/-- One user-facing mutation of the selection engine. -/
inductive EngineOp where
  | add (tool : ITool)
  | remove (toolId : String)
  | move (fromIndex toIndex : Int)
deriving DecidableEq, Repr

/-- Applies one mutation to the in-memory selection. -/
def applyOp (sel : List (Option ITool)) : EngineOp → List (Option ITool)
  | .add tool => addTool sel tool
  | .remove toolId => removeTool sel toolId
  | .move f t => moveItem sel f t

/-- Applies a sequence of mutations, left to right. -/
def applyOps (sel : List (Option ITool)) (ops : List EngineOp) : List (Option ITool) :=
  ops.foldl applyOp sel

/-- The ids present in a selection (`undefined` slots have no id). -/
def selIds (sel : List (Option ITool)) : List String :=
  sel.filterMap (Option.map ITool.id)

/-- `selectedTools.findIndex(tool => tool.id === item.id)` from the
drag-and-drop handler: index of the first matching slot, `-1` when there is no
match, `TypeError` (modelled as `.error`) when an `undefined` slot is reached
before any match. -/
def jsFindIndexById : List (Option ITool) → String → Except Unit Int
  | [], _ => .ok (-1)
  | none :: _, _ => .error ()
  | some t :: rest, i =>
    if t.id = i then .ok 0
    else
      match jsFindIndexById rest i with
      | .error e => .error e
      | .ok k => .ok (if k = -1 then -1 else k + 1)

/-- `dragDropEvents.onDrop` from the drag-and-drop component variant
(lines 260–280): `draggedItemIndex = findIndex(...)`, and unless
`draggedItemIndex === dropIndex` the item slot is spliced out at
`draggedItemIndex` and spliced back in at `dropIndex`.  There is no
bounds check on either index and no guard for the `-1` returned by
`findIndex` when the dragged id is absent. -/
def onDrop (sel : List (Option ITool)) (draggedId : String) (dropIndex : Int) :
    List (Option ITool) :=
  match jsFindIndexById sel draggedId with
  | .error _ => sel
  | .ok draggedItemIndex =>
    if draggedItemIndex = dropIndex then sel
    else
      let p := jsSplice1 sel draggedItemIndex
      jsInsert p.2 dropIndex p.1.join

/-- Engine state of the file-backed component variant: the in-memory
selection together with the ordered log of `saveToolsToFile` payloads. -/
structure P1State where
  selection : List (Option ITool)
  saves : List (List (Option ITool))
deriving DecidableEq, Repr

/-- `addTool` of the file-backed variant (lines 242–248): on an actual append
it also calls `saveToolsToFile(newTools)`. -/
def addToolP1 (s : P1State) (tool : ITool) : P1State :=
  match jsFindToolById s.selection tool.id with
  | .ok none =>
    let n := s.selection ++ [some tool]
    ⟨n, s.saves ++ [n]⟩
  | _ => s

/-- `removeTool` of the file-backed variant (lines 250–254): it calls
`saveToolsToFile(newTools)` unconditionally after filtering, even when
nothing was removed. -/
def removeToolP1 (s : P1State) (toolId : String) : P1State :=
  match jsFilterNeId s.selection toolId with
  | .ok n => ⟨n, s.saves ++ [n]⟩
  | .error _ => s

/-- `moveItem` of the file-backed variant (lines 232–240): same splice logic
as `moveItem`, plus a `saveToolsToFile(newTools)` call whenever the `toIndex`
guard passes. -/
def moveItemP1 (s : P1State) (fromIndex toIndex : Int) : P1State :=
  if toIndex < 0 ∨ (s.selection.length : Int) ≤ toIndex then s
  else
    let p := jsSplice1 s.selection fromIndex
    let n := jsInsert p.2 toIndex p.1.join
    ⟨n, s.saves ++ [n]⟩

/-- One mutation of the file-backed component variant. -/
inductive P1Op where
  | add (tool : ITool)
  | remove (toolId : String)
  | move (fromIndex toIndex : Int)
deriving DecidableEq, Repr

/-- Applies one mutation of the file-backed variant. -/
def applyP1 (s : P1State) : P1Op → P1State
  | .add tool => addToolP1 s tool
  | .remove toolId => removeToolP1 s toolId
  | .move f t => moveItemP1 s f t

/-- Applies a sequence of mutations of the file-backed variant. -/
def runP1 (s : P1State) (ops : List P1Op) : P1State :=
  ops.foldl applyP1 s

/-- `toLowerCase()` on a string (character-wise lowering, as for the ASCII
titles the component handles). -/
def jsToLower (s : String) : String :=
  String.mk (s.toList.map Char.toLower)

/-- Helper for `String.prototype.includes`: `true` iff `pat` occurs
contiguously in `hay`, checked by comparing `pat` against every suffix. -/
def prefixAux : List Char → List Char → Bool
  | [], _ => true
  | _ :: _, [] => false
  | p :: ps, c :: cs => p == c && prefixAux ps cs

/-- `hay.includes(pat)` over character lists. -/
def includesAux : List Char → List Char → Bool
  | pat, [] => prefixAux pat []
  | pat, c :: cs => prefixAux pat (c :: cs) || includesAux pat cs

/-- `s.includes(pat)` on strings. -/
def strIncludes (s pat : String) : Bool :=
  includesAux pat.toList s.toList

/-- `filteredAvailableTools` from `ToolsManager.tsx` lines 235–237:
`availableTools.filter(tool =>
   tool.title.toLowerCase().includes(searchTerm.toLowerCase()))`. -/
def filteredAvailableTools (availableTools : List ITool) (searchTerm : String) :
    List ITool :=
  availableTools.filter
    (fun tool => strIncludes (jsToLower tool.title) (jsToLower searchTerm))

/-- Outcome of reading the persisted selection file. -/
inductive LoadResult where
  | found (content : List (Option ITool))
  | notFound
deriving DecidableEq, Repr

/-- The hard-coded default tools seeded by `handleToolsFile` (Workday,
Time Mgr, Fidelity), with the icon built from the web's absolute URL. -/
def defaultTools (baseUrl : String) : List ITool :=
  [⟨"1", "Workday", baseUrl ++ "/_layouts/15/images/placeholder.png", "#"⟩,
   ⟨"2", "Time Mgr", baseUrl ++ "/_layouts/15/images/placeholder.png", "#"⟩,
   ⟨"3", "Fidelity", baseUrl ++ "/_layouts/15/images/placeholder.png", "#"⟩]

/-- `handleToolsFile` from the file-backed component variant (lines 106–135):
a successful read installs the file content as the selection with no save;
a failed read (the file does not exist) seeds the hard-coded defaults,
issues one `put` of exactly that default list, and installs it as the
selection.  Returns the resulting selection and the list of save payloads
issued during initialization. -/
def handleToolsFile (baseUrl : String) (load : LoadResult) :
    List (Option ITool) × List (List (Option ITool)) :=
  match load with
  | .found content => (content, [])
  | .notFound =>
    let d := (defaultTools baseUrl).map some
    (d, [d])

/-! ## Splice lemmas -/

/-- The effective splice index never exceeds the length. -/
theorem spliceIndex_le (len : Nat) (start : Int) : spliceIndex len start ≤ len := by
  unfold spliceIndex
  split
  · omega
  · exact Nat.min_le_right _ _

/-- A non-negative in-range start is used as-is by `splice`. -/
theorem spliceIndex_of_nonneg_lt (len : Nat) (start : Int)
    (h0 : 0 ≤ start) (h : start.toNat < len) : spliceIndex len start = start.toNat := by
  unfold spliceIndex
  split
  · omega
  · exact Nat.min_eq_left (Nat.le_of_lt h)

/-- Splice-inserting `x` anywhere is, up to permutation, just consing `x`. -/
theorem jsInsert_perm (l : List α) (start : Int) (x : α) :
    (jsInsert l start x).Perm (x :: l) := by
  have h : (l.take (spliceIndex l.length start) ++ x :: l.drop (spliceIndex l.length start)).Perm
      (x :: (l.take (spliceIndex l.length start) ++ l.drop (spliceIndex l.length start))) :=
    List.perm_middle
  simpa [jsInsert, List.take_append_drop] using h

/-- When the splice start is past the end, removal leaves the list intact. -/
theorem splice_rest_of_none {l : List α} {a : Nat} (h : l[a]? = none) :
    l.take a ++ l.drop (a + 1) = l := by
  have hlen : l.length ≤ a := List.getElem?_eq_none_iff.mp h
  rw [List.take_of_length_le hlen, List.drop_eq_nil_of_le (by omega)]
  simp

/-- Removing a present element is, up to permutation, extracting it. -/
theorem splice_perm_of_some {l : List α} {a : Nat} {v : α} (h : l[a]? = some v) :
    l.Perm (v :: (l.take a ++ l.drop (a + 1))) := by
  have h1 : a < l.length := by
    by_contra hc
    simp [List.getElem?_eq_none_iff.mpr (Nat.le_of_not_lt hc)] at h
  have h3 : l[a] = v := by
    have h2 := List.getElem?_eq_getElem h1
    rw [h2] at h
    exact Option.some.inj h
  have h4 : l = l.take a ++ v :: l.drop (a + 1) := by
    conv_lhs => rw [← List.take_append_drop a l, List.drop_eq_getElem_cons h1, h3]
  have h5 : (l.take a ++ v :: l.drop (a + 1)).Perm (v :: (l.take a ++ l.drop (a + 1))) :=
    List.perm_middle
  have h6 : l.Perm (l.take a ++ v :: l.drop (a + 1)) := by
    rw [← h4]
  exact h6.trans h5

/-- `insertIdx` in take/cons/drop form. -/
theorem insertIdx_take_cons_drop (x : α) :
    ∀ (n : Nat) (l : List α), n ≤ l.length →
      List.insertIdx n x l = l.take n ++ x :: l.drop n
  | 0, l, _ => by simp
  | n + 1, [], h => by simp at h
  | n + 1, c :: cs, h => by
    have ih := insertIdx_take_cons_drop x n cs (by simpa using h)
    simp [List.insertIdx_succ_cons, ih]

/-- A non-negative start within the length is used as-is by `splice`. -/
theorem spliceIndex_of_nonneg_le (len : Nat) (start : Int)
    (h0 : 0 ≤ start) (h : start.toNat ≤ len) : spliceIndex len start = start.toNat := by
  unfold spliceIndex
  split
  · omega
  · exact Nat.min_eq_left h

/-! ## Concrete sample tools -/

/-- Sample tool A. -/
def tA : ITool := ⟨"a", "Alpha", "icon-a", "url-a"⟩

/-- Sample tool B. -/
def tB : ITool := ⟨"b", "Beta", "icon-b", "url-b"⟩

/-- Sample tool C. -/
def tC : ITool := ⟨"c", "Gamma", "icon-c", "url-c"⟩

/-- Sample tool D. -/
def tD : ITool := ⟨"d", "Delta", "icon-d", "url-d"⟩

/-! ## C2: move has splice semantics for in-range indices -/

/-- C2: for every selection and in-range `fromIndex`/`toIndex`,
`moveItem` removes the element at `fromIndex` and reinserts it at `toIndex`
(splice semantics: intervening elements shift, no swap), i.e. it agrees with
`List.insertIdx`/`List.eraseIdx`. -/
theorem c2_move_splice (sel : List (Option ITool)) (f t : Int)
    (hf0 : 0 ≤ f) (hf : f.toNat < sel.length) (ht0 : 0 ≤ t) (ht : t.toNat < sel.length) :
    moveItem sel f t = List.insertIdx t.toNat sel[f.toNat] (sel.eraseIdx f.toNat) := by
  have hguard : ¬(t < 0 ∨ (sel.length : Int) ≤ t) := by omega
  have ha : spliceIndex sel.length f = f.toNat :=
    spliceIndex_of_nonneg_le _ _ hf0 (Nat.le_of_lt hf)
  have hrest : (sel.take f.toNat ++ sel.drop (f.toNat + 1)).length = sel.length - 1 := by
    simp only [List.length_append, List.length_take, List.length_drop]
    omega
  have hb : spliceIndex (sel.take f.toNat ++ sel.drop (f.toNat + 1)).length t = t.toNat := by
    rw [hrest]
    exact spliceIndex_of_nonneg_le _ _ ht0 (by omega)
  have hget : sel[f.toNat]? = some sel[f.toNat] := List.getElem?_eq_getElem hf
  rw [List.eraseIdx_eq_take_drop_succ,
    insertIdx_take_cons_drop _ _ _ (by rw [hrest]; omega)]
  simp only [moveItem, hguard, if_false, jsSplice1, jsInsert, ha, hget, Option.join,
    List.length_append, List.length_take, List.length_drop]
  have hmin : f.toNat ⊓ sel.length = f.toNat := Nat.min_eq_left (Nat.le_of_lt hf)
  rw [hmin]
  have hlen1 : f.toNat + (sel.length - (f.toNat + 1)) = sel.length - 1 := by omega
  rw [hlen1, spliceIndex_of_nonneg_le _ _ ht0 (by omega)]
  simp

/-- C2 witness: `move(0, 2)` on `[A, B, C, D]` yields `[B, C, A, D]`. -/
theorem c2_move_splice_witness :
    moveItem [some tA, some tB, some tC, some tD] 0 2 =
      List.insertIdx 2 (some tA) ([some tA, some tB, some tC, some tD].eraseIdx 0)
    ∧ List.insertIdx 2 (some tA) ([some tA, some tB, some tC, some tD].eraseIdx 0) =
      [some tB, some tC, some tA, some tD] := by
  constructor
  · exact c2_move_splice [some tA, some tB, some tC, some tD] 0 2
      (by decide) (by decide) (by decide) (by decide)
  · decide

/-! ## C3: only `toIndex` is validated by `moveItem` -/

/-- C3 counterexample: `fromIndex = -1` is out of range with `toIndex = 0`
in range, yet `moveItem` does not leave the selection unchanged — JavaScript
`splice(-1, 1)` removes the last element, so the selection `[A, B]` becomes
`[B, A]`. -/
theorem c3_move_invalid_counterexample :
    moveItem [some tA, some tB] (-1) 0 ≠ [some tA, some tB] := by decide

/-- C3 amended: only `toIndex` is validated — an out-of-range `toIndex`
leaves the selection unchanged (and no error is raised, the operation being a
total function), but `fromIndex` is not checked: with an in-range `toIndex`,
a `fromIndex` past the end removes nothing and splices the `undefined`
destructuring result (`none`) into the selection at `toIndex`. -/
theorem c3_move_invalid_amended :
    (∀ (sel : List (Option ITool)) (f t : Int),
      (t < 0 ∨ (sel.length : Int) ≤ t) → moveItem sel f t = sel)
    ∧ (∀ (sel : List (Option ITool)) (f t : Int),
      (sel.length : Int) ≤ f → 0 ≤ t → t < (sel.length : Int) →
        moveItem sel f t = jsInsert sel t none) := by
  constructor
  · intro sel f t h
    unfold moveItem
    rw [if_pos h]
  · intro sel f t hf ht0 ht
    have hguard : ¬(t < 0 ∨ (sel.length : Int) ≤ t) := by omega
    have ha : spliceIndex sel.length f = sel.length := by
      unfold spliceIndex
      split
      · omega
      · have : sel.length ≤ f.toNat := by omega
        omega
    have hget : sel[sel.length]? = (none : Option (Option ITool)) :=
      List.getElem?_eq_none_iff.mpr (Nat.le_refl _)
    have hdrop : sel.drop (sel.length + 1) = [] :=
      List.drop_eq_nil_of_le (by omega)
    simp [moveItem, hguard, jsSplice1, ha, hget, hdrop]

/-- C3 amended witness: `move(0, 5)` on `[A]` is a no-op, while `move(3, 0)`
on `[A]` splices an `undefined` slot in at index `0`. -/
theorem c3_move_invalid_amended_witness :
    moveItem [some tA] 0 5 = [some tA]
    ∧ moveItem [some tA] 3 0 = jsInsert [some tA] 0 none := by
  constructor
  · exact c3_move_invalid_amended.1 [some tA] 0 5 (by decide)
  · exact c3_move_invalid_amended.2 [some tA] 3 0 (by decide) (by decide) (by decide)

/-! ## C1: uniqueness of ids under add/remove/move -/

/-- Moving never changes the multiset of ids in the selection: when the
removed slot is real it is reinserted, and when `splice` removed nothing only
an `undefined` slot (with no id) is inserted. -/
theorem selIds_moveItem_perm (sel : List (Option ITool)) (f t : Int) :
    (selIds (moveItem sel f t)).Perm (selIds sel) := by
  unfold moveItem
  split
  · exact .refl _
  · simp only [jsSplice1]
    cases hx : sel[spliceIndex sel.length f]? with
    | some slot =>
      have h1 := (jsInsert_perm
        (sel.take (spliceIndex sel.length f) ++ sel.drop (spliceIndex sel.length f + 1))
        t ((some slot).join)).filterMap (Option.map ITool.id)
      have h2 := (splice_perm_of_some hx).filterMap (Option.map ITool.id)
      exact h1.trans h2.symm
    | none =>
      have hr := splice_rest_of_none hx
      rw [hr]
      have h1 := (jsInsert_perm sel t ((none : Option (Option ITool)).join)).filterMap
        (Option.map ITool.id)
      simpa [selIds, List.filterMap_cons] using h1

/-- When `find` scans the whole selection without a match, the sought id is
absent from the selection. -/
theorem jsFindToolById_ok_none :
    ∀ {sel : List (Option ITool)} {i : String},
      jsFindToolById sel i = .ok none → i ∉ selIds sel := by
  intro sel
  induction sel with
  | nil => intro i _; simp [selIds]
  | cons s rest ih =>
    intro i h
    cases s with
    | none => simp [jsFindToolById] at h
    | some t =>
      by_cases ht : t.id = i
      · simp [jsFindToolById, ht] at h
      · have h2 : jsFindToolById rest i = .ok none := by
          simpa [jsFindToolById, ht] using h
        have hrest := ih h2
        simp only [selIds, List.filterMap_cons, Option.map_some] at hrest ⊢
        intro hc
        rcases List.mem_cons.mp hc with hc1 | hc2
        · exact ht hc1.symm
        · exact hrest hc2

/-- Adding preserves uniqueness of ids: the tool is appended only when its id
is absent (and a thrown `TypeError` leaves the state unchanged). -/
theorem selIds_addTool_nodup {sel : List (Option ITool)} {x : ITool}
    (h : (selIds sel).Nodup) : (selIds (addTool sel x)).Nodup := by
  unfold addTool
  split
  · next heq =>
    have hni := jsFindToolById_ok_none heq
    have hids : selIds (sel ++ [some x]) = selIds sel ++ [x.id] := by
      simp [selIds, List.filterMap_append]
    rw [hids]
    exact (List.perm_append_singleton x.id (selIds sel)).symm.nodup
      (List.nodup_cons.mpr ⟨hni, h⟩)
  · exact h

/-- A successful filter pass returns a sublist of the selection. -/
theorem jsFilterNeId_sublist :
    ∀ {sel : List (Option ITool)} {i : String} {r : List (Option ITool)},
      jsFilterNeId sel i = .ok r → r.Sublist sel := by
  intro sel
  induction sel with
  | nil =>
    intro i r h
    simp only [jsFilterNeId, Except.ok.injEq] at h
    rw [← h]
  | cons s rest ih =>
    intro i r h
    cases s with
    | none => simp [jsFilterNeId] at h
    | some t =>
      cases hf : jsFilterNeId rest i with
      | error e => simp [jsFilterNeId, hf] at h
      | ok r0 =>
        simp only [jsFilterNeId, hf, Except.ok.injEq] at h
        by_cases hti : t.id ≠ i
        · rw [if_pos hti] at h
          rw [← h]
          exact (ih hf).cons₂ (some t)
        · rw [if_neg hti] at h
          rw [← h]
          exact (ih hf).cons (some t)

/-- Removing produces ids that form a sublist of the previous ids. -/
theorem selIds_removeTool_sublist (sel : List (Option ITool)) (i : String) :
    (selIds (removeTool sel i)).Sublist (selIds sel) := by
  unfold removeTool
  split
  · next heq => exact (jsFilterNeId_sublist heq).filterMap (Option.map ITool.id)
  · exact List.Sublist.refl _

/-- C1: every sequence of add/remove/move operations started from a selection
with no duplicate ids yields a selection with no duplicate ids. -/
theorem c1_selection_ids_nodup (ops : List EngineOp) (sel : List (Option ITool))
    (h : (selIds sel).Nodup) : (selIds (applyOps sel ops)).Nodup := by
  induction ops generalizing sel with
  | nil => exact h
  | cons op rest ih =>
    show (selIds (applyOps (applyOp sel op) rest)).Nodup
    apply ih
    cases op with
    | add tool => exact selIds_addTool_nodup h
    | remove toolId => exact h.sublist (selIds_removeTool_sublist sel toolId)
    | move f t => exact (selIds_moveItem_perm sel f t).symm.nodup h

/-- C1 witness: a concrete add/move/remove run from a duplicate-free
selection keeps the ids duplicate-free. -/
theorem c1_selection_ids_nodup_witness :
    (selIds (applyOps [some tA]
      [EngineOp.add tB, EngineOp.move 0 1, EngineOp.remove "a", EngineOp.move 5 0])).Nodup :=
  c1_selection_ids_nodup
    [EngineOp.add tB, EngineOp.move 0 1, EngineOp.remove "a", EngineOp.move 5 0]
    [some tA] (by decide)

/-! ## C9: idempotent add -/

/-- `find` over a concatenation: the second half is scanned only when the
first half was fully scanned without a match. -/
theorem jsFindToolById_append (l1 l2 : List (Option ITool)) (i : String) :
    jsFindToolById (l1 ++ l2) i =
      match jsFindToolById l1 i with
      | .ok none => jsFindToolById l2 i
      | r => r := by
  induction l1 with
  | nil => simp [jsFindToolById]
  | cons s rest ih =>
    cases s with
    | none => simp [jsFindToolById]
    | some t =>
      by_cases ht : t.id = i
      · simp [jsFindToolById, ht]
      · simp [jsFindToolById, ht, ih]

/-- C9: adding the same tool twice yields the same selection as adding it
once, for both the plain component and the file-backed variant (whose state
includes the save log). -/
theorem c9_add_idempotent :
    (∀ (sel : List (Option ITool)) (x : ITool),
      addTool (addTool sel x) x = addTool sel x)
    ∧ (∀ (s : P1State) (x : ITool),
      addToolP1 (addToolP1 s x) x = addToolP1 s x) := by
  constructor
  · intro sel x
    cases hf : jsFindToolById sel x.id with
    | error e => simp [addTool, hf]
    | ok v =>
      cases v with
      | none =>
        have happ : jsFindToolById (sel ++ [some x]) x.id = .ok (some x) := by
          rw [jsFindToolById_append, hf]
          simp [jsFindToolById]
        simp [addTool, hf, happ]
      | some t => simp [addTool, hf]
  · intro s x
    cases hf : jsFindToolById s.selection x.id with
    | error e => simp [addToolP1, hf]
    | ok v =>
      cases v with
      | none =>
        have happ : jsFindToolById (s.selection ++ [some x]) x.id = .ok (some x) := by
          rw [jsFindToolById_append, hf]
          simp [jsFindToolById]
        simp [addToolP1, hf, happ]
      | some t => simp [addToolP1, hf]

/-! ## C10: remove deletes exactly the matching entries, in order -/

/-- Filtering a list of real tool slots never throws, and agrees with the
mathematical filter on the underlying tools. -/
theorem jsFilterNeId_map_some (ts : List ITool) (i : String) :
    jsFilterNeId (ts.map some) i = .ok ((ts.filter (fun t => t.id ≠ i)).map some) := by
  induction ts with
  | nil => simp [jsFilterNeId]
  | cons t rest ih =>
    by_cases ht : t.id ≠ i
    · simp [jsFilterNeId, ih, List.filter_cons, ht]
    · simp [jsFilterNeId, ih, List.filter_cons, ht]

/-- C10: on a selection of real tools, `removeTool x` keeps, in order,
exactly the entries whose id differs from `x`: it equals the mathematical
filter, which is a sublist of the input (relative order preserved) and whose
membership is exactly "was present and has a different id". -/
theorem c10_remove_filter :
    ∀ (ts : List ITool) (x : String),
      removeTool (ts.map some) x = (ts.filter (fun t => t.id ≠ x)).map some
      ∧ (ts.filter (fun t => t.id ≠ x)).Sublist ts
      ∧ (∀ t : ITool, t ∈ ts.filter (fun t => t.id ≠ x) ↔ t ∈ ts ∧ t.id ≠ x) := by
  intro ts x
  refine ⟨?_, List.filter_sublist _, ?_⟩
  · unfold removeTool
    rw [jsFilterNeId_map_some]
  · intro t
    rw [List.mem_filter]
    simp

/-! ## C7: a remove of an absent id still saves -/

/-- C7 counterexample: removing an id that is not in the selection leaves the
selection unchanged but does issue a save (the file-backed `removeTool` calls
`saveToolsToFile(newTools)` unconditionally), contradicting the claim that no
save is scheduled. -/
theorem c7_noop_remove_counterexample :
    (removeToolP1 ⟨[some tA], []⟩ "zz").selection = [some tA]
    ∧ (removeToolP1 ⟨[some tA], []⟩ "zz").saves ≠ [] := by decide

/-- C7 amended: removing an absent id leaves the selection unchanged but
still issues exactly one save, whose payload is the unchanged selection. -/
theorem c7_noop_remove_amended (ts : List ITool) (x : String)
    (saves : List (List (Option ITool))) (h : ∀ t ∈ ts, t.id ≠ x) :
    removeToolP1 ⟨ts.map some, saves⟩ x = ⟨ts.map some, saves ++ [ts.map some]⟩ := by
  have hfilter : ts.filter (fun t => t.id ≠ x) = ts :=
    List.filter_eq_self.mpr (by intro a ha; simpa using h a ha)
  have hf := jsFilterNeId_map_some ts x
  rw [hfilter] at hf
  simp [removeToolP1, hf]

/-- C7 amended witness: removing `"zz"` from `[A]` keeps the selection and
logs one save of `[A]`. -/
theorem c7_noop_remove_amended_witness :
    removeToolP1 ⟨[tA].map some, []⟩ "zz" = ⟨[tA].map some, [[tA].map some]⟩ :=
  c7_noop_remove_amended [tA] "zz" [] (by decide)

/-! ## C6: no save coalescing — one save per effective mutation -/

/-- C6 counterexample: three mutations in rapid succession (three adds run
back to back) issue three save calls, not the claimed two. -/
theorem c6_coalescing_counterexample :
    (runP1 ⟨[], []⟩ [P1Op.add tA, P1Op.add tB, P1Op.add tC]).saves.length = 3
    ∧ (runP1 ⟨[], []⟩ [P1Op.add tA, P1Op.add tB, P1Op.add tC]).saves.length ≠ 2 := by
  decide

/-- C6 amended: there is no save coalescing — every mutation either leaves
the whole state unchanged (no save) or appends exactly one save whose payload
is the updated selection; in particular three effective mutations issue three
saves, and the most recent save always carries the current in-memory
selection. -/
theorem c6_saves_amended :
    (∀ (s : P1State) (op : P1Op),
      applyP1 s op = s ∨ ∃ n, applyP1 s op = ⟨n, s.saves ++ [n]⟩)
    ∧ (runP1 ⟨[], []⟩ [P1Op.add tA, P1Op.add tB, P1Op.add tC]).saves =
        [[some tA], [some tA, some tB], [some tA, some tB, some tC]]
    ∧ (runP1 ⟨[], []⟩ [P1Op.add tA, P1Op.add tB, P1Op.add tC]).saves.getLast? =
        some (runP1 ⟨[], []⟩ [P1Op.add tA, P1Op.add tB, P1Op.add tC]).selection := by
  refine ⟨?_, by decide, by decide⟩
  intro s op
  cases op with
  | add tool =>
    show addToolP1 s tool = s ∨ ∃ n, addToolP1 s tool = ⟨n, s.saves ++ [n]⟩
    unfold addToolP1
    split
    · right; exact ⟨s.selection ++ [some tool], rfl⟩
    · left; rfl
  | remove toolId =>
    show removeToolP1 s toolId = s ∨ ∃ n, removeToolP1 s toolId = ⟨n, s.saves ++ [n]⟩
    unfold removeToolP1
    split
    · next n heq => right; exact ⟨n, rfl⟩
    · left; rfl
  | move f t =>
    show moveItemP1 s f t = s ∨ ∃ n, moveItemP1 s f t = ⟨n, s.saves ++ [n]⟩
    unfold moveItemP1
    split
    · left; rfl
    · right
      exact ⟨jsInsert (jsSplice1 s.selection f).2 t (jsSplice1 s.selection f).1.join, rfl⟩

/-! ## C5: default seeding on NotFound -/

/-- C5: when the persisted file is not found, initialization seeds the
selection with the default list (Workday, Time Mgr, Fidelity), issues exactly
one save, and that save's payload is exactly the default list. -/
theorem c5_default_seeding (baseUrl : String) :
    (handleToolsFile baseUrl LoadResult.notFound).1 = (defaultTools baseUrl).map some
    ∧ (handleToolsFile baseUrl LoadResult.notFound).2 = [(defaultTools baseUrl).map some]
    ∧ (defaultTools baseUrl).map ITool.title = ["Workday", "Time Mgr", "Fidelity"] :=
  ⟨rfl, rfl, rfl⟩

/-! ## C4: drag-and-drop vs move -/

/-- `findIndex` never reports an index below `-1`. -/
theorem jsFindIndexById_ge :
    ∀ {sel : List (Option ITool)} {i : String} {k : Int},
      jsFindIndexById sel i = .ok k → -1 ≤ k := by
  intro sel
  induction sel with
  | nil =>
    intro i k h
    simp only [jsFindIndexById, Except.ok.injEq] at h
    omega
  | cons s rest ih =>
    intro i k h
    cases s with
    | none => simp [jsFindIndexById] at h
    | some t =>
      by_cases ht : t.id = i
      · simp only [jsFindIndexById, ht, if_pos, Except.ok.injEq] at h
        omega
      · cases hf : jsFindIndexById rest i with
        | error e => simp [jsFindIndexById, ht, hf] at h
        | ok k0 =>
          simp only [jsFindIndexById, ht, ite_false, hf, Except.ok.injEq] at h
          have := ih hf
          by_cases hk0 : k0 = -1
          · rw [if_pos hk0] at h
            omega
          · rw [if_neg hk0] at h
            omega

/-- A non-negative `findIndex` result points at a real slot holding a tool
with the sought id. -/
theorem jsFindIndexById_spec :
    ∀ {sel : List (Option ITool)} {i : String} {k : Int},
      jsFindIndexById sel i = .ok k → 0 ≤ k →
        ∃ t : ITool, sel[k.toNat]? = some (some t) ∧ t.id = i := by
  intro sel
  induction sel with
  | nil =>
    intro i k h hk
    simp only [jsFindIndexById, Except.ok.injEq] at h
    omega
  | cons s rest ih =>
    intro i k h hk
    cases s with
    | none => simp [jsFindIndexById] at h
    | some t =>
      by_cases ht : t.id = i
      · simp only [jsFindIndexById, ht, if_pos, Except.ok.injEq] at h
        have hk0 : k.toNat = 0 := by omega
        rw [hk0]
        exact ⟨t, by simp, ht⟩
      · cases hf : jsFindIndexById rest i with
        | error e => simp [jsFindIndexById, ht, hf] at h
        | ok k0 =>
          simp only [jsFindIndexById, ht, ite_false, Except.ok.injEq, hf] at h
          by_cases hk0 : k0 = -1
          · rw [if_pos hk0] at h
            omega
          · rw [if_neg hk0] at h
            have hge := jsFindIndexById_ge hf
            have hk0' : 0 ≤ k0 := by omega
            obtain ⟨t0, hget, hid⟩ := ih hf hk0'
            have hkn : k.toNat = k0.toNat + 1 := by omega
            rw [hkn]
            exact ⟨t0, by rw [List.getElem?_cons_succ]; exact hget, hid⟩

/-- Moving a real slot to its own index is the identity. -/
theorem moveItem_self (sel : List (Option β)) (k : Int) (hk : 0 ≤ k)
    (hlen : k.toNat < sel.length) : moveItem sel k k = sel := by
  have hguard : ¬(k < 0 ∨ (sel.length : Int) ≤ k) := by omega
  have ha : spliceIndex sel.length k = k.toNat :=
    spliceIndex_of_nonneg_le _ _ hk hlen.le
  have hget : sel[k.toNat]? = some sel[k.toNat] := List.getElem?_eq_getElem hlen
  have hb : spliceIndex (sel.take k.toNat ++ sel.drop (k.toNat + 1)).length k = k.toNat := by
    have hrest : (sel.take k.toNat ++ sel.drop (k.toNat + 1)).length = sel.length - 1 := by
      simp only [List.length_append, List.length_take, List.length_drop]
      omega
    rw [hrest]
    exact spliceIndex_of_nonneg_le _ _ hk (by omega)
  simp only [moveItem, hguard, if_false, jsSplice1, jsInsert]
  rw [ha, hb, hget]
  have ht1 : (sel.take k.toNat).length = k.toNat := by
    simp only [List.length_take]
    omega
  rw [List.take_left' ht1, List.drop_left' ht1]
  show sel.take k.toNat ++ sel[k.toNat] :: sel.drop (k.toNat + 1) = sel
  rw [← List.drop_eq_getElem_cons hlen, List.take_append_drop]

/-- C4 counterexample: dropping with a dragged id that is absent from the
selection is not a no-op — `findIndex` returns `-1`, the `-1 !== dropIndex`
guard passes, and `splice(-1, 1)` moves the last element to the drop index:
`[A, B]` becomes `[B, A]`. -/
theorem c4_drop_equiv_counterexample :
    onDrop [some tA, some tB] "zz" 0 ≠ [some tA, some tB] := by decide

/-- C4 amended: when the dragged id is present in the selection (so
`findIndex` returns its non-negative index `k`) and the target index is in
range, `onDrop` agrees with `moveItem(k, targetIndex)`; when the dragged id
is absent, `onDrop` is not a no-op (see the counterexample). -/
theorem c4_drop_equiv_amended (sel : List (Option ITool)) (draggedId : String)
    (k t : Int) (hfind : jsFindIndexById sel draggedId = .ok k) (hk : 0 ≤ k)
    (ht0 : 0 ≤ t) (ht : t < (sel.length : Int)) :
    onDrop sel draggedId t = moveItem sel k t := by
  have hguard : ¬(t < 0 ∨ (sel.length : Int) ≤ t) := by omega
  obtain ⟨tool, hget, -⟩ := jsFindIndexById_spec hfind hk
  by_cases hkt : k = t
  · subst hkt
    have hlen : k.toNat < sel.length := by
      by_contra hc
      rw [List.getElem?_eq_none_iff.mpr (Nat.le_of_not_lt hc)] at hget
      simp at hget
    rw [moveItem_self sel k hk hlen]
    unfold onDrop
    rw [hfind]
    simp
  · unfold onDrop moveItem
    rw [hfind]
    simp only [hkt, ite_false, hguard, if_false]

/-- C4 amended witness: dropping the tool with id `"b"` onto index `0` in
`[A, B]` agrees with `move(1, 0)`. -/
theorem c4_drop_equiv_amended_witness :
    onDrop [some tA, some tB] "b" 0 = moveItem [some tA, some tB] 1 0 :=
  c4_drop_equiv_amended [some tA, some tB] "b" 1 0 (by rfl) (by decide)
    (by decide) (by decide)

/-! ## C8: the available view is a case-insensitive substring filter -/

/-- `prefixAux` decides "is a prefix of". -/
theorem prefixAux_iff : ∀ (p h : List Char), prefixAux p h = true ↔ ∃ post, h = p ++ post
  | [], h => by simp [prefixAux]
  | p :: ps, [] => by simp [prefixAux]
  | p :: ps, c :: cs => by
    simp only [prefixAux, Bool.and_eq_true, beq_iff_eq]
    rw [prefixAux_iff ps cs]
    constructor
    · rintro ⟨rfl, post, rfl⟩
      exact ⟨post, rfl⟩
    · rintro ⟨post, hps⟩
      rw [List.cons_append] at hps
      injection hps with h1 h2
      exact ⟨h1.symm, post, h2⟩

/-- `includesAux` decides "occurs contiguously inside". -/
theorem includesAux_iff :
    ∀ (pat hay : List Char), includesAux pat hay = true ↔ ∃ pre post, hay = pre ++ pat ++ post
  | pat, [] => by
    simp only [includesAux]
    rw [prefixAux_iff]
    constructor
    · rintro ⟨post, h⟩
      exact ⟨[], post, by simpa using h⟩
    · rintro ⟨pre, post, h⟩
      have h2 := h.symm
      simp only [List.append_eq_nil] at h2
      exact ⟨[], by simp [h2.1.2, h2.2]⟩
  | pat, c :: cs => by
    simp only [includesAux, Bool.or_eq_true]
    rw [prefixAux_iff, includesAux_iff pat cs]
    constructor
    · rintro (⟨post, h⟩ | ⟨pre, post, h⟩)
      · exact ⟨[], post, by simpa using h⟩
      · exact ⟨c :: pre, post, by simp [h]⟩
    · rintro ⟨pre, post, h⟩
      cases pre with
      | nil =>
        left
        exact ⟨post, by simpa using h⟩
      | cons d ds =>
        right
        rw [List.cons_append, List.cons_append] at h
        injection h with h1 h2
        exact ⟨ds, post, h2⟩

/-- C8: the available view keeps exactly the catalog tools whose lowercased
title contains the lowercased filter string contiguously (case-insensitive
substring match), excludes nothing else (in particular it is independent of
the selection), preserves catalog order, and on the catalog
`[Workday, Time Mgr]` the filter `"wor"` yields exactly `[Workday]`. -/
theorem c8_filter_spec :
    (∀ (availableTools : List ITool) (searchTerm : String) (t : ITool),
      t ∈ filteredAvailableTools availableTools searchTerm ↔
        t ∈ availableTools ∧
          ∃ pre post, (jsToLower t.title).toList =
            pre ++ (jsToLower searchTerm).toList ++ post)
    ∧ (∀ (availableTools : List ITool) (searchTerm : String),
      (filteredAvailableTools availableTools searchTerm).Sublist availableTools)
    ∧ filteredAvailableTools
        [⟨"1", "Workday", "icon-w", "#"⟩, ⟨"2", "Time Mgr", "icon-t", "#"⟩] "wor" =
        [⟨"1", "Workday", "icon-w", "#"⟩] := by
  refine ⟨?_, fun availableTools searchTerm => List.filter_sublist _, by decide⟩
  intro availableTools searchTerm t
  constructor
  · intro h
    have h2 := List.mem_filter.mp h
    exact ⟨h2.1, (includesAux_iff _ _).mp h2.2⟩
  · intro h
    exact List.mem_filter.mpr ⟨h.1, (includesAux_iff _ _).mpr h.2⟩
